import Mathlib

/-!
Verification of the bank-reconciliation core against its specification.

The canonical transaction model, the matching engine (`match`), the
unmatched classifier (`classify` / outstanding checks) and the
reconciliation summary are embedded below.  The repository ships only the
callers (`main.py`, `troubleshoot.py`); the engine itself
(`core/reconciliation_engine.py`) is not part of the sources, so those
components are modelled from the specification (each such definition says
so in its doc comment).  `getParser` is embedded directly from
`src/main.py`.

Dates are modelled as integer day numbers (the spec relies only on day
differences); monetary amounts are exact rationals.
-/

/-- Canonical transaction model, from spec section 3: date, description,
debit/credit (non-negative monetary amounts), optional reference (empty
string when absent). The `category` label is assigned by the classifier
and is not part of matching identity, so it is kept out of the record. -/
structure Transaction where
  date : Int
  description : String
  debit : Rat
  credit : Rat
  reference : String
  deriving Repr, DecidableEq

/-- Signed net amount of a transaction: credit minus debit (spec 4.1:
"where `amount` is the signed net value (credit − debit)"). -/
def Transaction.amount (t : Transaction) : Rat := t.credit - t.debit

/-- A transaction as it arrives from a parser adapter, before validation:
date and the two amount fields may be missing. -/
structure RawTransaction where
  date : Option Int
  description : String
  debit : Option Rat
  credit : Option Rat
  reference : String
  deriving Repr, DecidableEq

/-- Modelled from the spec: validation of one raw transaction
(spec 4.1 / 7: "malformed transaction (missing date or amount)"); the
canonical transaction is produced exactly when date, debit and credit are
all present. `core/reconciliation_engine.py` is not among the sources. -/
def RawTransaction.toTransaction (r : RawTransaction) : Option Transaction :=
  match r.date, r.debit, r.credit with
  | some d, some db, some cr => some ⟨d, r.description, db, cr, r.reference⟩
  | _, _, _ => none

/-- Modelled from the spec: the error taxonomy of spec section 7.
`ValidationError` carries the index and the raw record ("reported
per-transaction with enough context (index, raw values) to locate it");
`ParameterError` rejects negative parameters. -/
inductive RecError where
  | parameterError : RecError
  | validationError (index : Nat) (raw : RawTransaction) : RecError
  deriving Repr, DecidableEq

/-- A Match (spec section 3): the bank/ledger pair together with the
amount delta and date delta that justified the pairing.  Indices are the
positions in the original input sequences. -/
structure Match where
  bankIdx : Nat
  bank : Transaction
  ledgerIdx : Nat
  ledger : Transaction
  amountDelta : Rat
  dateDelta : Int
  deriving Repr, DecidableEq

/-- Result triple of the matching engine (spec 4.1 contract):
matches, unmatched-bank, unmatched-ledger. -/
structure MatchResult where
  «matches» : List Match
  unmatchedBank : List (Nat × Transaction)
  unmatchedLedger : List (Nat × Transaction)
  deriving Repr, DecidableEq

/-- Modelled from the spec: candidate eligibility (spec 4.1):
`abs(bank.amount - ledger.amount) <= amount_tolerance` and
`abs(bank.date - ledger.date) in days <= date_window_days`. -/
def eligible (tol : Rat) (window : Int) (b l : Transaction) : Bool :=
  decide (|b.amount - l.amount| ≤ tol) && decide (|b.date - l.date| ≤ window)

/-- Modelled from the spec: the comparison key for candidate selection
(spec 4.1): amount delta first, then date delta, then earliest date, then
input order — lexicographically. -/
def candKey (b : Transaction) (c : Nat × Transaction) : Rat ×ₗ Int ×ₗ Int ×ₗ Nat :=
  toLex (|b.amount - c.2.amount|, toLex (|b.date - c.2.date|, toLex (c.2.date, c.1)))

/-- Modelled from the spec: scan of the available ledger pool keeping the
best candidate seen so far; a later candidate replaces the current best
only when its key is strictly smaller. -/
def findBestAux (tol : Rat) (window : Int) (b : Transaction) :
    List (Nat × Transaction) → Option (Nat × Transaction) → Option (Nat × Transaction)
  | [], best => best
  | c :: rest, none =>
    if eligible tol window b c.2 then findBestAux tol window b rest (some c)
    else findBestAux tol window b rest none
  | c :: rest, some cur =>
    if eligible tol window b c.2 then
      if candKey b c < candKey b cur then findBestAux tol window b rest (some c)
      else findBestAux tol window b rest (some cur)
    else findBestAux tol window b rest (some cur)

/-- Modelled from the spec: best eligible candidate in the still-available
ledger pool (spec 4.1 step 2), `none` when no candidate is eligible. -/
def findBest (tol : Rat) (window : Int) (b : Transaction)
    (pool : List (Nat × Transaction)) : Option (Nat × Transaction) :=
  findBestAux tol window b pool none

/-- Modelled from the spec: bank-side processing key (spec 4.1 step 2):
by date, then original input order. -/
def bankKey (p : Nat × Transaction) : Int ×ₗ Nat := toLex (p.2.date, p.1)

/-- Insertion of an indexed bank transaction into a list sorted by
`bankKey`. -/
def insertBank (p : Nat × Transaction) :
    List (Nat × Transaction) → List (Nat × Transaction)
  | [] => [p]
  | q :: rest => if bankKey p ≤ bankKey q then p :: q :: rest else q :: insertBank p rest

/-- Modelled from the spec: deterministic processing order of the bank
side (spec 4.1 step 2) — insertion sort by date, then input order. -/
def sortBanks : List (Nat × Transaction) → List (Nat × Transaction)
  | [] => []
  | p :: rest => insertBank p (sortBanks rest)

/-- The recorded Match for a chosen bank/ledger pair. -/
def mkMatch (b l : Nat × Transaction) : Match :=
  ⟨b.1, b.2, l.1, l.2, |b.2.amount - l.2.amount|, |b.2.date - l.2.date|⟩

/-- Removal of the first occurrence of a consumed transaction from its
pool (spec 4.1 step 3). -/
def eraseFirst (x : Nat × Transaction) :
    List (Nat × Transaction) → List (Nat × Transaction)
  | [] => []
  | y :: ys => if y = x then ys else y :: eraseFirst x ys

/-- Modelled from the spec: the greedy matching loop (spec 4.1 steps 2-5).
Each bank transaction, in processing order, either consumes its best
eligible ledger candidate (both leave their pools) or stays unmatched. -/
def matchLoop (tol : Rat) (window : Int) :
    List (Nat × Transaction) → List (Nat × Transaction) → MatchResult
  | [], pool => ⟨[], [], pool⟩
  | b :: bs, pool =>
    match findBest tol window b.2 pool with
    | none =>
      let r := matchLoop tol window bs pool
      ⟨r.matches, b :: r.unmatchedBank, r.unmatchedLedger⟩
    | some l =>
      let r := matchLoop tol window bs (eraseFirst l pool)
      ⟨mkMatch b l :: r.matches, r.unmatchedBank, r.unmatchedLedger⟩

/-- Modelled from the spec: validation pass over a raw sequence
(spec 7): fails fast at the first malformed record, reporting its index
and raw values. -/
def validateAll (n : Nat) : List RawTransaction → Except RecError (List Transaction)
  | [] => .ok []
  | r :: rs =>
    match r.toTransaction with
    | none => .error (.validationError n r)
    | some t =>
      match validateAll (n + 1) rs with
      | .error e => .error e
      | .ok ts => .ok (t :: ts)

/-- Tags each element of a list with its position, starting at `n`. -/
def withIdx (n : Nat) : List Transaction → List (Nat × Transaction)
  | [] => []
  | t :: ts => (n, t) :: withIdx (n + 1) ts

/-- Modelled from the spec: the matching engine contract of spec 4.1,
`match(bank_transactions, ledger_transactions, amount_tolerance,
date_window_days)`.  Parameters are checked first (spec 7: ParameterError
"rejected before any matching work begins"), then both inputs are
validated, then the greedy loop runs over index-tagged transactions. -/
def Engine.«match» (bank ledger : List RawTransaction) (tol : Rat) (window : Int) :
    Except RecError MatchResult :=
  if tol < 0 ∨ window < 0 then .error .parameterError
  else
    match validateAll 0 bank with
    | .error e => .error e
    | .ok bs =>
      match validateAll 0 ledger with
      | .error e => .error e
      | .ok ls => .ok (matchLoop tol window (sortBanks (withIdx 0 bs)) (withIdx 0 ls))

/-- Keyword test used by the description-based category heuristic. -/
def containsKeyword (s w : String) : Bool := decide (w.toList <:+: s.toList)

/-- Modelled from the spec: category heuristic for unmatched bank
transactions (spec 4.2: keywords such as "fee", "interest", "transfer",
falling back to "Uncategorized"). -/
def categorize (t : Transaction) : String :=
  if containsKeyword t.description "fee" then "Fees"
  else if containsKeyword t.description "interest" then "Interest"
  else if containsKeyword t.description "transfer" then "Transfers"
  else "Uncategorized"

/-- Per-category count and sum aggregates over a pool (spec 4.2). -/
def bucketize (ts : List (Nat × Transaction)) : List (String × Nat × Rat) :=
  ((ts.map fun p => categorize p.2).dedup).map fun c =>
    (c, (ts.filter fun p => categorize p.2 = c).length,
     ((ts.filter fun p => categorize p.2 = c).map fun p => p.2.amount).sum)

/-- An outstanding-check entry: the fields retained per spec 4.2
(`reference`, `debit` amount, `date`); the caller `print_action_items` in
src/main.py reads them as Check_Number, Amount, Date. -/
structure OutstandingCheck where
  checkNumber : String
  amount : Rat
  date : Int
  deriving Repr, DecidableEq

/-- Modelled from the spec: the outstanding-check rule (spec 4.2):
non-empty `reference` field and a debit amount; classification keys
strictly on the debit side. -/
def isOutstandingCheck (t : Transaction) : Bool :=
  decide (t.reference ≠ "") && decide (0 < t.debit)

/-- The outstanding-check entry built from a ledger transaction. -/
def mkCheck (t : Transaction) : OutstandingCheck := ⟨t.reference, t.debit, t.date⟩

/-- Insertion into a list of checks sorted by date ascending. -/
def insertCheck (c : OutstandingCheck) :
    List OutstandingCheck → List OutstandingCheck
  | [] => [c]
  | d :: rest => if c.date ≤ d.date then c :: d :: rest else d :: insertCheck c rest

/-- Insertion sort of outstanding checks by date ascending (spec 4.2:
"an ordered list sorted by date ascending"). -/
def sortChecks : List OutstandingCheck → List OutstandingCheck
  | [] => []
  | c :: rest => insertCheck c (sortChecks rest)

/-- Modelled from the spec: the complete outstanding-checks list drawn
from the unmatched ledger records (spec 4.2), sorted by date ascending. -/
def outstandingChecks (ul : List (Nat × Transaction)) : List OutstandingCheck :=
  sortChecks ((ul.filter fun p => isOutstandingCheck p.2).map fun p => mkCheck p.2)

/-- Classification output (spec 4.2): generic category buckets for each
side plus the itemized outstanding-check list. -/
structure Buckets where
  bankBuckets : List (String × Nat × Rat)
  ledgerBuckets : List (String × Nat × Rat)
  outstanding : List OutstandingCheck
  deriving Repr, DecidableEq

/-- Modelled from the spec: `classify(unmatched_bank, unmatched_ledger)`
(spec 4.2).  The outstanding-check rule is applied to the ledger side
before generic categorization; outstanding checks come only from the
unmatched ledger records. -/
def classify (ub ul : List (Nat × Transaction)) : Buckets :=
  ⟨bucketize ub,
   bucketize (ul.filter fun p => !isOutstandingCheck p.2),
   outstandingChecks ul⟩

/-- Sum of signed net amounts over an indexed pool. -/
def sumAmounts (l : List (Nat × Transaction)) : Rat :=
  (l.map fun p => p.2.amount).sum

/-- Modelled from the spec: the ReconciliationSummary (spec 3 / 4.3):
matches, both unmatched lists, the classification buckets, and the
balanced/unbalanced verdict. -/
structure ReconciliationSummary where
  «matches» : List Match
  unmatchedBank : List (Nat × Transaction)
  unmatchedLedger : List (Nat × Transaction)
  buckets : Buckets
  verdict : String
  deriving Repr, DecidableEq

/-- Modelled from the spec: summary assembly (spec 4.3): pure aggregation
plus the verdict, "balanced" when
`abs(sum(unmatched_bank.amount) - sum(unmatched_ledger.amount)) <=
amount_tolerance`, else "unbalanced". -/
def summarize (r : MatchResult) (tol : Rat) : ReconciliationSummary :=
  ⟨r.«matches», r.unmatchedBank, r.unmatchedLedger,
   classify r.unmatchedBank r.unmatchedLedger,
   if |sumAmounts r.unmatchedBank - sumAmounts r.unmatchedLedger| ≤ tol
   then "balanced" else "unbalanced"⟩

/-- The action-item display of outstanding checks in src/main.py
(`outstanding[:5]`): only the first 5 entries are shown. -/
def displayedChecks (l : List OutstandingCheck) : List OutstandingCheck := l.take 5

/-- The count of the remainder shown by src/main.py
(`len(outstanding)-5`). -/
def remainderCount (l : List OutstandingCheck) : Nat := l.length - 5

/-- A parser instance as produced by `get_parser` in src/main.py: one of
the two registered parser classes, holding the file path it was
constructed with. -/
inductive ParserInstance where
  | chase (filePath : String)
  | wellsFargo (filePath : String)
  deriving Repr, DecidableEq

/-- `get_parser` from src/main.py: looks the bank type up in the registry
with keys "chase" and "wells_fargo"; on a hit it instantiates the parser
class with the file path, otherwise it prints the available options and
returns None. -/
def getParser (bankType filePath : String) : Option ParserInstance :=
  if bankType = "chase" then some (.chase filePath)
  else if bankType = "wells_fargo" then some (.wellsFargo filePath)
  else none

/-! ### Helper lemmas about the engine -/

/-- Removing a member is inverse to putting it back in front, up to
permutation. -/
theorem perm_cons_eraseFirst {x : Nat × Transaction} :
    ∀ {l : List (Nat × Transaction)}, x ∈ l → List.Perm l (x :: eraseFirst x l) := by
  intro l
  induction l with
  | nil => intro h; cases h
  | cons y ys ih =>
    intro h
    by_cases hxy : y = x
    · subst hxy
      simp [eraseFirst]
    · have hmem : x ∈ ys := by
        rcases List.mem_cons.mp h with h1 | h1
        · exact absurd h1.symm hxy
        · exact h1
      simp only [eraseFirst, if_neg hxy]
      exact ((ih hmem).cons y).trans (List.Perm.swap x y (eraseFirst x ys))

/-- The scan only ever returns a pool member or the incoming best. -/
theorem findBestAux_mem {tol : Rat} {w : Int} {b : Transaction} :
    ∀ (pool : List (Nat × Transaction)) (best l : Option (Nat × Transaction)),
      findBestAux tol w b pool best = l → l = best ∨ ∃ c ∈ pool, l = some c := by
  intro pool
  induction pool with
  | nil =>
    intro best l h
    simp only [findBestAux] at h
    exact Or.inl h.symm
  | cons c rest ih =>
    intro best l h
    cases best with
    | none =>
      simp only [findBestAux] at h
      by_cases he : eligible tol w b c.2 = true
      · rw [if_pos he] at h
        rcases ih _ _ h with h1 | ⟨d, hd, hld⟩
        · exact Or.inr ⟨c, List.mem_cons_self _ _, h1⟩
        · exact Or.inr ⟨d, List.mem_cons_of_mem _ hd, hld⟩
      · rw [if_neg he] at h
        rcases ih _ _ h with h1 | ⟨d, hd, hld⟩
        · exact Or.inl h1
        · exact Or.inr ⟨d, List.mem_cons_of_mem _ hd, hld⟩
    | some cur =>
      simp only [findBestAux] at h
      by_cases he : eligible tol w b c.2 = true
      · rw [if_pos he] at h
        by_cases hk : candKey b c < candKey b cur
        · rw [if_pos hk] at h
          rcases ih _ _ h with h1 | ⟨d, hd, hld⟩
          · exact Or.inr ⟨c, List.mem_cons_self _ _, h1⟩
          · exact Or.inr ⟨d, List.mem_cons_of_mem _ hd, hld⟩
        · rw [if_neg hk] at h
          rcases ih _ _ h with h1 | ⟨d, hd, hld⟩
          · exact Or.inl h1
          · exact Or.inr ⟨d, List.mem_cons_of_mem _ hd, hld⟩
      · rw [if_neg he] at h
        rcases ih _ _ h with h1 | ⟨d, hd, hld⟩
        · exact Or.inl h1
        · exact Or.inr ⟨d, List.mem_cons_of_mem _ hd, hld⟩

/-- A chosen best candidate is a member of the pool. -/
theorem findBest_mem {tol : Rat} {w : Int} {b : Transaction}
    {pool : List (Nat × Transaction)} {l : Nat × Transaction}
    (h : findBest tol w b pool = some l) : l ∈ pool := by
  rcases findBestAux_mem pool none (some l) h with h1 | ⟨c, hc, hlc⟩
  · exact absurd h1 (by simp)
  · cases hlc
    exact hc

/-- Bank-side conservation of the greedy loop: the bank indices of the
matches together with the unmatched-bank indices are a permutation of the
processed bank indices. -/
theorem matchLoop_perm_bank (tol : Rat) (w : Int) :
    ∀ (bs pool : List (Nat × Transaction)),
      List.Perm
        ((matchLoop tol w bs pool).«matches».map Match.bankIdx
          ++ (matchLoop tol w bs pool).unmatchedBank.map Prod.fst)
        (bs.map Prod.fst) := by
  intro bs
  induction bs with
  | nil => intro pool; simp [matchLoop]
  | cons b rest ih =>
    intro pool
    cases hf : findBest tol w b.2 pool with
    | none =>
      simp only [matchLoop, hf, List.map_cons]
      exact List.perm_middle.trans ((ih pool).cons b.1)
    | some l =>
      simp only [matchLoop, hf, List.map_cons, mkMatch, List.cons_append]
      exact (ih (eraseFirst l pool)).cons b.1

/-- Ledger-side conservation of the greedy loop: the ledger pairs of the
matches together with the unmatched-ledger list are a permutation of the
initial pool. -/
theorem matchLoop_perm_ledger (tol : Rat) (w : Int) :
    ∀ (bs pool : List (Nat × Transaction)),
      List.Perm
        ((matchLoop tol w bs pool).«matches».map (fun m => (m.ledgerIdx, m.ledger))
          ++ (matchLoop tol w bs pool).unmatchedLedger)
        pool := by
  intro bs
  induction bs with
  | nil => intro pool; simp [matchLoop]
  | cons b rest ih =>
    intro pool
    cases hf : findBest tol w b.2 pool with
    | none =>
      simp only [matchLoop, hf]
      exact ih pool
    | some l =>
      simp only [matchLoop, hf, List.map_cons, mkMatch, List.cons_append]
      exact ((ih (eraseFirst l pool)).cons l).trans (perm_cons_eraseFirst (findBest_mem hf)).symm

/-- Validation preserves the input length on success. -/
theorem validateAll_ok_length :
    ∀ (n : Nat) (rs : List RawTransaction) (ts : List Transaction),
      validateAll n rs = .ok ts → ts.length = rs.length := by
  intro n rs
  induction rs generalizing n with
  | nil =>
    intro ts h
    simp only [validateAll] at h
    cases h
    rfl
  | cons r rest ih =>
    intro ts h
    simp only [validateAll] at h
    cases hr : r.toTransaction with
    | none => rw [hr] at h; cases h
    | some t =>
      rw [hr] at h
      cases hv : validateAll (n + 1) rest with
      | error e => rw [hv] at h; cases h
      | ok us =>
        rw [hv] at h
        cases h
        simp [ih _ _ hv]

/-- The indices of an index-tagged list. -/
theorem withIdx_map_fst :
    ∀ (n : Nat) (ts : List Transaction),
      (withIdx n ts).map Prod.fst = List.range' n ts.length := by
  intro n ts
  induction ts generalizing n with
  | nil => simp [withIdx]
  | cons t rest ih => simp [withIdx, List.range'_succ, ih]

/-- Insertion into the bank processing order is a permutation. -/
theorem insertBank_perm (p : Nat × Transaction) :
    ∀ (l : List (Nat × Transaction)), List.Perm (insertBank p l) (p :: l) := by
  intro l
  induction l with
  | nil => simp [insertBank]
  | cons q rest ih =>
    simp only [insertBank]
    by_cases hle : bankKey p ≤ bankKey q
    · rw [if_pos hle]
    · rw [if_neg hle]
      exact (ih.cons q).trans (List.Perm.swap p q rest)

/-- The bank processing order is a permutation of the input order. -/
theorem sortBanks_perm :
    ∀ (l : List (Nat × Transaction)), List.Perm (sortBanks l) l := by
  intro l
  induction l with
  | nil => simp [sortBanks]
  | cons p rest ih =>
    exact (insertBank_perm p (sortBanks rest)).trans (ih.cons p)

/-- Insertion preserves sortedness by the bank processing key. -/
theorem insertBank_pairwise (p : Nat × Transaction) :
    ∀ (l : List (Nat × Transaction)),
      List.Pairwise (fun a c => bankKey a ≤ bankKey c) l →
      List.Pairwise (fun a c => bankKey a ≤ bankKey c) (insertBank p l) := by
  intro l
  induction l with
  | nil => intro _; simp [insertBank]
  | cons q rest ih =>
    intro h
    rcases List.pairwise_cons.mp h with ⟨hq, hrest⟩
    simp only [insertBank]
    by_cases hle : bankKey p ≤ bankKey q
    · rw [if_pos hle]
      refine List.pairwise_cons.mpr ⟨?_, h⟩
      intro x hx
      rcases List.mem_cons.mp hx with rfl | hx
      · exact hle
      · exact le_trans hle (hq x hx)
    · rw [if_neg hle]
      refine List.pairwise_cons.mpr ⟨?_, ih hrest⟩
      intro x hx
      rcases List.mem_cons.mp ((insertBank_perm p rest).mem_iff.mp hx) with rfl | hx
      · exact le_of_not_le hle
      · exact hq x hx

/-- The bank processing order is sorted by date, then input order. -/
theorem sortBanks_pairwise :
    ∀ (l : List (Nat × Transaction)),
      List.Pairwise (fun a c => bankKey a ≤ bankKey c) (sortBanks l) := by
  intro l
  induction l with
  | nil => simp [sortBanks]
  | cons p rest ih => exact insertBank_pairwise p (sortBanks rest) ih

/-- On success every input record was well-formed. -/
theorem validateAll_ok_valid :
    ∀ (n : Nat) (rs : List RawTransaction) (ts : List Transaction),
      validateAll n rs = .ok ts → ∀ r ∈ rs, r.toTransaction ≠ none := by
  intro n rs
  induction rs generalizing n with
  | nil => intro ts _ r hr; cases hr
  | cons r rest ih =>
    intro ts h x hx
    simp only [validateAll] at h
    cases hr : r.toTransaction with
    | none => rw [hr] at h; cases h
    | some t =>
      rw [hr] at h
      cases hv : validateAll (n + 1) rest with
      | error e => rw [hv] at h; cases h
      | ok us =>
        rcases List.mem_cons.mp hx with rfl | hx
        · simp [hr]
        · exact ih (n + 1) us hv x hx

/-- A well-formed sequence validates. -/
theorem validateAll_ok_of_valid :
    ∀ (n : Nat) (rs : List RawTransaction),
      (∀ r ∈ rs, r.toTransaction ≠ none) → ∃ ts, validateAll n rs = .ok ts := by
  intro n rs
  induction rs generalizing n with
  | nil => intro _; exact ⟨[], rfl⟩
  | cons r rest ih =>
    intro h
    cases hr : r.toTransaction with
    | none => exact absurd hr (h r (List.mem_cons_self _ _))
    | some t =>
      rcases ih (n + 1) (fun x hx => h x (List.mem_cons_of_mem _ hx)) with ⟨us, hus⟩
      exact ⟨t :: us, by simp [validateAll, hr, hus]⟩

/-- A malformed record fails validation with its index and raw values. -/
theorem validateAll_error_of_invalid :
    ∀ (n : Nat) (rs : List RawTransaction),
      (∃ r ∈ rs, r.toTransaction = none) →
      ∃ i raw, validateAll n rs = .error (.validationError (n + i) raw) ∧
        rs.get? i = some raw ∧ raw.toTransaction = none := by
  intro n rs
  induction rs generalizing n with
  | nil => rintro ⟨r, hr, _⟩; cases hr
  | cons r rest ih =>
    rintro ⟨x, hx, hxn⟩
    cases hr : r.toTransaction with
    | none => exact ⟨0, r, by simp [validateAll, hr]⟩
    | some t =>
      have hmem : ∃ y ∈ rest, y.toTransaction = none := by
        rcases List.mem_cons.mp hx with rfl | hx2
        · exact absurd hxn (by simp [hr])
        · exact ⟨x, hx2, hxn⟩
      rcases ih (n + 1) hmem with ⟨i, raw, hv, hget, hraw⟩
      refine ⟨i + 1, raw, ?_, by simpa using hget, hraw⟩
      have : n + 1 + i = n + (i + 1) := by omega
      simp [validateAll, hr, this ▸ hv]

/-- Characterization of a successful engine run: both sides validate and
the result is the greedy loop over the index-tagged, bank-sorted pools. -/
theorem match_ok_elim (bank ledger : List RawTransaction) (tol : Rat) (w : Int)
    (r : MatchResult) (h : Engine.«match» bank ledger tol w = .ok r) :
    ∃ bs ls, validateAll 0 bank = .ok bs ∧ validateAll 0 ledger = .ok ls ∧
      ¬(tol < 0 ∨ w < 0) ∧
      r = matchLoop tol w (sortBanks (withIdx 0 bs)) (withIdx 0 ls) := by
  by_cases hp : tol < 0 ∨ w < 0
  · rw [Engine.«match», if_pos hp] at h
    cases h
  · rw [Engine.«match», if_neg hp] at h
    cases hb : validateAll 0 bank with
    | error e => rw [hb] at h; cases h
    | ok bs =>
      rw [hb] at h
      cases hl : validateAll 0 ledger with
      | error e => rw [hl] at h; cases h
      | ok ls =>
        rw [hl] at h
        cases h
        exact ⟨bs, ls, rfl, rfl, hp, rfl⟩

/-- The scan returns an eligible candidate whenever the incoming best was
eligible (or absent). -/
theorem findBestAux_eligible {tol : Rat} {w : Int} {b : Transaction} :
    ∀ (pool : List (Nat × Transaction)) (best : Option (Nat × Transaction))
      (l : Nat × Transaction),
      findBestAux tol w b pool best = some l →
      (∀ cur, best = some cur → eligible tol w b cur.2 = true) →
      eligible tol w b l.2 = true := by
  intro pool
  induction pool with
  | nil =>
    intro best l h hbest
    simp only [findBestAux] at h
    exact hbest l h
  | cons c rest ih =>
    intro best l h hbest
    cases best with
    | none =>
      simp only [findBestAux] at h
      by_cases he : eligible tol w b c.2 = true
      · rw [if_pos he] at h
        exact ih _ _ h (fun cur hcur => by cases hcur; exact he)
      · rw [if_neg he] at h
        exact ih _ _ h (fun cur hcur => by cases hcur)
    | some cur =>
      have hcur : eligible tol w b cur.2 = true := hbest cur rfl
      simp only [findBestAux] at h
      by_cases he : eligible tol w b c.2 = true
      · rw [if_pos he] at h
        by_cases hk : candKey b c < candKey b cur
        · rw [if_pos hk] at h
          exact ih _ _ h (fun x hx => by cases hx; exact he)
        · rw [if_neg hk] at h
          exact ih _ _ h (fun x hx => by cases hx; exact hcur)
      · rw [if_neg he] at h
        exact ih _ _ h (fun x hx => by cases hx; exact hcur)

/-- The scan returns a candidate whose key is minimal among the eligible
pool elements and no larger than the incoming best. -/
theorem findBestAux_min {tol : Rat} {w : Int} {b : Transaction} :
    ∀ (pool : List (Nat × Transaction)) (best : Option (Nat × Transaction))
      (l : Nat × Transaction),
      findBestAux tol w b pool best = some l →
      (∀ c ∈ pool, eligible tol w b c.2 = true → candKey b l ≤ candKey b c) ∧
      (∀ cur, best = some cur → candKey b l ≤ candKey b cur) := by
  intro pool
  induction pool with
  | nil =>
    intro best l h
    simp only [findBestAux] at h
    refine ⟨fun c hc => absurd hc (List.not_mem_nil c), fun cur hcur => ?_⟩
    rw [h] at hcur
    cases hcur
    exact le_refl _
  | cons c rest ih =>
    intro best l h
    cases best with
    | none =>
      simp only [findBestAux] at h
      by_cases he : eligible tol w b c.2 = true
      · rw [if_pos he] at h
        rcases ih _ _ h with ⟨hP, hQ⟩
        refine ⟨fun x hx hex => ?_, fun cur hcur => by cases hcur⟩
        rcases List.mem_cons.mp hx with rfl | hx2
        · exact hQ x rfl
        · exact hP x hx2 hex
      · rw [if_neg he] at h
        rcases ih _ _ h with ⟨hP, _⟩
        refine ⟨fun x hx hex => ?_, fun cur hcur => by cases hcur⟩
        rcases List.mem_cons.mp hx with rfl | hx2
        · exact absurd hex he
        · exact hP x hx2 hex
    | some cur =>
      simp only [findBestAux] at h
      by_cases he : eligible tol w b c.2 = true
      · rw [if_pos he] at h
        by_cases hk : candKey b c < candKey b cur
        · rw [if_pos hk] at h
          rcases ih _ _ h with ⟨hP, hQ⟩
          refine ⟨fun x hx hex => ?_, fun x hx => ?_⟩
          · rcases List.mem_cons.mp hx with rfl | hx2
            · exact hQ x rfl
            · exact hP x hx2 hex
          · cases hx
            exact le_trans (hQ c rfl) (le_of_lt hk)
        · rw [if_neg hk] at h
          rcases ih _ _ h with ⟨hP, hQ⟩
          refine ⟨fun x hx hex => ?_, fun x hx => ?_⟩
          · rcases List.mem_cons.mp hx with rfl | hx2
            · exact le_trans (hQ cur rfl) (not_lt.mp hk)
            · exact hP x hx2 hex
          · cases hx
            exact hQ cur rfl
      · rw [if_neg he] at h
        rcases ih _ _ h with ⟨hP, hQ⟩
        refine ⟨fun x hx hex => ?_, fun x hx => ?_⟩
        · rcases List.mem_cons.mp hx with rfl | hx2
          · exact absurd hex he
          · exact hP x hx2 hex
        · cases hx
          exact hQ cur rfl

/-- A found best candidate is eligible. -/
theorem findBest_eligible {tol : Rat} {w : Int} {b : Transaction}
    {pool : List (Nat × Transaction)} {l : Nat × Transaction}
    (h : findBest tol w b pool = some l) : eligible tol w b l.2 = true :=
  findBestAux_eligible pool none l h (fun _ hx => by cases hx)

/-- A found best candidate minimizes the selection key among all eligible
pool candidates. -/
theorem findBest_min {tol : Rat} {w : Int} {b : Transaction}
    {pool : List (Nat × Transaction)} {l : Nat × Transaction}
    (h : findBest tol w b pool = some l) :
    ∀ c ∈ pool, eligible tol w b c.2 = true → candKey b l ≤ candKey b c :=
  (findBestAux_min pool none l h).1

/-- Insertion of a check is a permutation. -/
theorem insertCheck_perm (c : OutstandingCheck) :
    ∀ (l : List OutstandingCheck), List.Perm (insertCheck c l) (c :: l) := by
  intro l
  induction l with
  | nil => simp [insertCheck]
  | cons d rest ih =>
    simp only [insertCheck]
    by_cases hle : c.date ≤ d.date
    · rw [if_pos hle]
    · rw [if_neg hle]
      exact (ih.cons d).trans (List.Perm.swap c d rest)

/-- Sorting the checks is a permutation. -/
theorem sortChecks_perm :
    ∀ (l : List OutstandingCheck), List.Perm (sortChecks l) l := by
  intro l
  induction l with
  | nil => simp [sortChecks]
  | cons c rest ih =>
    exact (insertCheck_perm c (sortChecks rest)).trans (ih.cons c)

/-- Insertion preserves date-sortedness of the check list. -/
theorem insertCheck_pairwise (c : OutstandingCheck) :
    ∀ (l : List OutstandingCheck),
      List.Pairwise (fun a e => a.date ≤ e.date) l →
      List.Pairwise (fun a e => a.date ≤ e.date) (insertCheck c l) := by
  intro l
  induction l with
  | nil => intro _; simp [insertCheck]
  | cons d rest ih =>
    intro h
    rcases List.pairwise_cons.mp h with ⟨hd, hrest⟩
    simp only [insertCheck]
    by_cases hle : c.date ≤ d.date
    · rw [if_pos hle]
      refine List.pairwise_cons.mpr ⟨?_, h⟩
      intro x hx
      rcases List.mem_cons.mp hx with rfl | hx
      · exact hle
      · exact le_trans hle (hd x hx)
    · rw [if_neg hle]
      refine List.pairwise_cons.mpr ⟨?_, ih hrest⟩
      intro x hx
      rcases List.mem_cons.mp ((insertCheck_perm c rest).mem_iff.mp hx) with rfl | hx
      · exact le_of_not_le hle
      · exact hd x hx

/-- The outstanding-check list is sorted by date ascending. -/
theorem sortChecks_pairwise :
    ∀ (l : List OutstandingCheck),
      List.Pairwise (fun a e => a.date ≤ e.date) (sortChecks l) := by
  intro l
  induction l with
  | nil => simp [sortChecks]
  | cons c rest ih => exact insertCheck_pairwise c (sortChecks rest) ih

/-! ### Claim theorems -/

/-- C8: if `amount_tolerance < 0` or `date_window_days < 0`, the run is
rejected with a ParameterError before any matching work begins; no Match
is recorded and no Summary is produced. -/
theorem paramReject (bank ledger : List RawTransaction) (tol : Rat) (w : Int)
    (h : tol < 0 ∨ w < 0) :
    Engine.«match» bank ledger tol w = .error .parameterError ∧
    ∀ r : MatchResult, Engine.«match» bank ledger tol w ≠ .ok r := by
  refine ⟨by rw [Engine.«match», if_pos h], ?_⟩
  intro r hr
  rw [Engine.«match», if_pos h] at hr
  cases hr

/-- Witness for C8 at `amount_tolerance = -1`. -/
theorem paramReject_witness :
    Engine.«match» [] [] (-1) 3 = .error .parameterError :=
  (paramReject [] [] (-1) 3 (Or.inl (by norm_num))).1

/-- C10: `get_parser` returns a parser instance exactly for the registry
keys "chase" and "wells_fargo" and returns None for every other bank
type; being a total function, it never raises. -/
theorem getParserSpec (bankType filePath : String) :
    ((getParser bankType filePath).isSome = true ↔
      bankType = "chase" ∨ bankType = "wells_fargo") ∧
    (bankType ≠ "chase" → bankType ≠ "wells_fargo" →
      getParser bankType filePath = none) := by
  constructor
  · by_cases h1 : bankType = "chase"
    · simp [getParser, h1]
    · by_cases h2 : bankType = "wells_fargo"
      · simp [getParser, h1, h2]
      · simp [getParser, h1, h2]
  · intro h1 h2
    simp [getParser, h1, h2]

/-- Witness for C10 at the unknown bank type "bank_of_america". -/
theorem getParserSpec_witness :
    getParser "bank_of_america" "data/input/bank_statement.csv" = none :=
  (getParserSpec "bank_of_america" "data/input/bank_statement.csv").2
    (by decide) (by decide)

/-- C5: `match()` is deterministic — two runs on identical inputs and
parameters return the same result, and equal results yield identical
match lists, classification buckets and summaries. -/
theorem matchDeterministic (bank ledger : List RawTransaction) (tol : Rat)
    (w : Int) (r1 r2 : Except RecError MatchResult)
    (h1 : Engine.«match» bank ledger tol w = r1)
    (h2 : Engine.«match» bank ledger tol w = r2) :
    r1 = r2 ∧
    ∀ m1 m2 : MatchResult, r1 = .ok m1 → r2 = .ok m2 →
      m1.«matches» = m2.«matches» ∧
      classify m1.unmatchedBank m1.unmatchedLedger
        = classify m2.unmatchedBank m2.unmatchedLedger ∧
      summarize m1 tol = summarize m2 tol := by
  subst h1
  subst h2
  refine ⟨rfl, ?_⟩
  intro m1 m2 hm1 hm2
  rw [hm1] at hm2
  cases hm2
  exact ⟨rfl, rfl, rfl⟩

/-- Witness for C5: two runs on the same concrete input agree. -/
theorem matchDeterministic_witness :
    Engine.«match» [] [] 0 3 = Engine.«match» [] [] 0 3 :=
  (matchDeterministic [] [] 0 3 _ _ rfl rfl).1

/-- C9: the ReconciliationSummary verdict is "balanced" iff the absolute
difference of the unmatched sums is within the tolerance; zero sums give
"balanced" and any difference beyond tolerance gives "unbalanced". -/
theorem balancedVerdict (r : MatchResult) (tol : Rat) (htol : 0 ≤ tol) :
    ((summarize r tol).verdict = "balanced" ↔
      |sumAmounts r.unmatchedBank - sumAmounts r.unmatchedLedger| ≤ tol) ∧
    (sumAmounts r.unmatchedBank = 0 → sumAmounts r.unmatchedLedger = 0 →
      (summarize r tol).verdict = "balanced") ∧
    (¬ |sumAmounts r.unmatchedBank - sumAmounts r.unmatchedLedger| ≤ tol →
      (summarize r tol).verdict = "unbalanced") := by
  by_cases hc : |sumAmounts r.unmatchedBank - sumAmounts r.unmatchedLedger| ≤ tol
  · refine ⟨?_, fun _ _ => ?_, fun hn => absurd hc hn⟩
    · simp [summarize, if_pos hc, hc]
    · simp [summarize, if_pos hc]
  · refine ⟨?_, fun hb hl => ?_, fun _ => ?_⟩
    · simp only [summarize, if_neg hc]
      constructor
      · intro he
        exact absurd he (by decide)
      · intro he
        exact absurd he hc
    · exact absurd (by rw [hb, hl]; simpa using htol) hc
    · simp [summarize, if_neg hc]

/-- Witness for C9: empty unmatched lists sum to zero and the verdict is
"balanced". -/
theorem balancedVerdict_witness :
    (summarize ⟨[], [], []⟩ 0).verdict = "balanced" :=
  (balancedVerdict ⟨[], [], []⟩ 0 (le_refl 0)).2.1 rfl rfl

/-- C4: candidate eligibility is inclusive at both boundaries: a pair is
eligible iff the amount delta is within `amount_tolerance` and the day
difference within `date_window_days`, with amount the signed net value
(credit minus debit); a delta of exactly the tolerance matches, a delta
of tolerance + 0.01 does not, and analogously at the date window. -/
theorem eligibilityBoundary (tol : Rat) (w : Int) (b l : Transaction) :
    (eligible tol w b l = true ↔
      (|b.amount - l.amount| ≤ tol ∧ |b.date - l.date| ≤ w)) ∧
    b.amount = b.credit - b.debit ∧
    (|b.amount - l.amount| = tol → |b.date - l.date| ≤ w →
      eligible tol w b l = true) ∧
    (|b.amount - l.amount| = tol + 1 / 100 → eligible tol w b l = false) ∧
    (|b.date - l.date| = w → |b.amount - l.amount| ≤ tol →
      eligible tol w b l = true) ∧
    (|b.date - l.date| = w + 1 → eligible tol w b l = false) := by
  have hiff : eligible tol w b l = true ↔
      (|b.amount - l.amount| ≤ tol ∧ |b.date - l.date| ≤ w) := by
    simp [eligible]
  refine ⟨hiff, rfl, ?_, ?_, ?_, ?_⟩
  · intro h1 h2
    exact hiff.mpr ⟨le_of_eq h1, h2⟩
  · intro h1
    have hgt : ¬ |b.amount - l.amount| ≤ tol := by
      rw [h1]
      simp only [not_le]
      linarith
    cases he : eligible tol w b l with
    | false => rfl
    | true => exact absurd (hiff.mp he).1 hgt
  · intro h1 h2
    exact hiff.mpr ⟨h2, le_of_eq h1⟩
  · intro h1
    have hgt : ¬ |b.date - l.date| ≤ w := by
      rw [h1]
      simp only [not_le]
      omega
    cases he : eligible tol w b l with
    | false => rfl
    | true => exact absurd (hiff.mp he).2 hgt

/-- Witness for C4: with tolerance 1 and window 2, a pair differing by
exactly 1 in amount and 2 days is eligible; the same pair against
tolerance-plus-a-cent and a 3-day difference is not. -/
theorem eligibilityBoundary_witness :
    eligible 1 2 ⟨0, "", 0, 0, ""⟩ ⟨2, "", 0, 1, ""⟩ = true ∧
    eligible (99 / 100) 2 ⟨0, "", 0, 0, ""⟩ ⟨2, "", 0, 1, ""⟩ = false ∧
    eligible 1 2 ⟨0, "", 0, 0, ""⟩ ⟨3, "", 0, 1, ""⟩ = false := by
  refine ⟨?_, ?_, ?_⟩
  · exact (eligibilityBoundary 1 2 ⟨0, "", 0, 0, ""⟩ ⟨2, "", 0, 1, ""⟩).2.2.1
      (by norm_num [Transaction.amount]) (by norm_num)
  · exact (eligibilityBoundary (99 / 100) 2 ⟨0, "", 0, 0, ""⟩
      ⟨2, "", 0, 1, ""⟩).2.2.2.1 (by norm_num [Transaction.amount])
  · exact (eligibilityBoundary 1 2 ⟨0, "", 0, 0, ""⟩
      ⟨3, "", 0, 1, ""⟩).2.2.2.2.2 (by norm_num)

/-- Shared helper: a successful run pairs/classifies exactly the input
indices of each side, as a permutation of `range`. -/
theorem match_ok_perm (bank ledger : List RawTransaction) (tol : Rat) (w : Int)
    (r : MatchResult) (h : Engine.«match» bank ledger tol w = .ok r) :
    List.Perm (r.«matches».map Match.bankIdx ++ r.unmatchedBank.map Prod.fst)
      (List.range bank.length) ∧
    List.Perm (r.«matches».map Match.ledgerIdx ++ r.unmatchedLedger.map Prod.fst)
      (List.range ledger.length) := by
  obtain ⟨bs, ls, hb, hl, _, hr⟩ := match_ok_elim bank ledger tol w r h
  have hblen := validateAll_ok_length 0 bank bs hb
  have hllen := validateAll_ok_length 0 ledger ls hl
  subst hr
  constructor
  · have h1 := matchLoop_perm_bank tol w (sortBanks (withIdx 0 bs)) (withIdx 0 ls)
    have h2 : List.Perm ((sortBanks (withIdx 0 bs)).map Prod.fst)
        ((withIdx 0 bs).map Prod.fst) := (sortBanks_perm _).map Prod.fst
    rw [List.range_eq_range', ← hblen, ← withIdx_map_fst 0 bs]
    exact h1.trans h2
  · have h1 := (matchLoop_perm_ledger tol w (sortBanks (withIdx 0 bs))
      (withIdx 0 ls)).map Prod.fst
    rw [List.map_append, List.map_map] at h1
    have hc : (Prod.fst ∘ fun m : Match => (m.ledgerIdx, m.ledger))
        = Match.ledgerIdx := rfl
    rw [hc] at h1
    rw [List.range_eq_range', ← hllen, ← withIdx_map_fst 0 ls]
    exact h1

/-- C1: on every successful run each input transaction appears in exactly
one of a Match or its side's unmatched list (the indices are a
permutation of the inputs), hence
`len(matches)*2 + len(unmatched_bank) + len(unmatched_ledger)
  == len(bank_transactions) + len(ledger_transactions)`. -/
theorem conservation (bank ledger : List RawTransaction) (tol : Rat) (w : Int)
    (r : MatchResult) (h : Engine.«match» bank ledger tol w = .ok r) :
    List.Perm (r.«matches».map Match.bankIdx ++ r.unmatchedBank.map Prod.fst)
      (List.range bank.length) ∧
    List.Perm (r.«matches».map Match.ledgerIdx ++ r.unmatchedLedger.map Prod.fst)
      (List.range ledger.length) ∧
    r.«matches».length * 2 + r.unmatchedBank.length + r.unmatchedLedger.length
      = bank.length + ledger.length := by
  obtain ⟨h1, h2⟩ := match_ok_perm bank ledger tol w r h
  refine ⟨h1, h2, ?_⟩
  have e1 := h1.length_eq
  have e2 := h2.length_eq
  simp only [List.length_append, List.length_map, List.length_range] at e1 e2
  omega

/-- C2: no transaction is reused on a successful run: the matched bank
indices are distinct, the matched ledger indices are distinct, and no
matched transaction also appears in its side's unmatched list. -/
theorem noReuse (bank ledger : List RawTransaction) (tol : Rat) (w : Int)
    (r : MatchResult) (h : Engine.«match» bank ledger tol w = .ok r) :
    (r.«matches».map Match.bankIdx).Nodup ∧
    (r.«matches».map Match.ledgerIdx).Nodup ∧
    (∀ m ∈ r.«matches», m.bankIdx ∉ r.unmatchedBank.map Prod.fst) ∧
    (∀ m ∈ r.«matches», m.ledgerIdx ∉ r.unmatchedLedger.map Prod.fst) := by
  obtain ⟨h1, h2⟩ := match_ok_perm bank ledger tol w r h
  have hb : (r.«matches».map Match.bankIdx
      ++ r.unmatchedBank.map Prod.fst).Nodup :=
    h1.nodup_iff.mpr (List.nodup_range _)
  have hl : (r.«matches».map Match.ledgerIdx
      ++ r.unmatchedLedger.map Prod.fst).Nodup :=
    h2.nodup_iff.mpr (List.nodup_range _)
  rcases List.nodup_append.mp hb with ⟨hb1, _, hbd⟩
  rcases List.nodup_append.mp hl with ⟨hl1, _, hld⟩
  refine ⟨hb1, hl1, ?_, ?_⟩
  · intro m hm hmem
    exact hbd (List.mem_map_of_mem Match.bankIdx hm) hmem
  · intro m hm hmem
    exact hld (List.mem_map_of_mem Match.ledgerIdx hm) hmem

/-- The spec section 8 scenario: two bank transactions (a deposit of 100
on day 1 and check #1001 of 50 on day 5) against one ledger deposit of
100 on day 2. -/
def bankScen : List RawTransaction :=
  [⟨some 1, "deposit", some 0, some 100, ""⟩,
   ⟨some 5, "check", some 50, some 0, "1001"⟩]

/-- The ledger side of the spec section 8 scenario. -/
def ledgerScen : List RawTransaction :=
  [⟨some 2, "deposit", some 0, some 100, ""⟩]

/-- Result of the spec section 8 scenario with tolerance 0 and a 3-day
window: the deposits pair up, the check stays unmatched on the bank
side. -/
def scenResult : MatchResult :=
  ⟨[⟨0, ⟨1, "deposit", 0, 100, ""⟩, 0, ⟨2, "deposit", 0, 100, ""⟩, 0, 1⟩],
   [(1, ⟨5, "check", 50, 0, "1001"⟩)], []⟩

/-- The engine run of the spec section 8 scenario, evaluated. -/
theorem scenRun : Engine.«match» bankScen ledgerScen 0 3 = .ok scenResult := by
  norm_num [Engine.«match», bankScen, ledgerScen, scenResult, validateAll,
    RawTransaction.toTransaction, withIdx, sortBanks, insertBank, bankKey,
    matchLoop, findBest, findBestAux, eligible, candKey, mkMatch, eraseFirst,
    Transaction.amount, Prod.Lex.le_iff, Prod.Lex.lt_iff]

/-- Witness for C1 at the spec section 8 scenario. -/
theorem conservation_witness :
    scenResult.«matches».length * 2 + scenResult.unmatchedBank.length
      + scenResult.unmatchedLedger.length
      = bankScen.length + ledgerScen.length :=
  (conservation bankScen ledgerScen 0 3 scenResult scenRun).2.2

/-- Witness for C2 at the spec section 8 scenario. -/
theorem noReuse_witness :
    (scenResult.«matches».map Match.bankIdx).Nodup ∧
    ∀ m ∈ scenResult.«matches», m.bankIdx ∉ scenResult.unmatchedBank.map Prod.fst := by
  obtain ⟨h1, _, h3, _⟩ := noReuse bankScen ledgerScen 0 3 scenResult scenRun
  exact ⟨h1, h3⟩

/-- C7: with well-formed parameters, any malformed input transaction
makes the whole run fail with a ValidationError carrying the index and
raw values of a malformed record, and a run that returns a result had
only well-formed inputs (no partial result around a malformed record). -/
theorem failFast (bank ledger : List RawTransaction) (tol : Rat) (w : Int)
    (hp : ¬(tol < 0 ∨ w < 0)) :
    ((∃ r ∈ bank ++ ledger, r.toTransaction = none) →
      ∃ i raw, Engine.«match» bank ledger tol w
          = .error (.validationError i raw) ∧
        raw.toTransaction = none ∧
        (bank.get? i = some raw ∨ ledger.get? i = some raw)) ∧
    (∀ s : MatchResult, Engine.«match» bank ledger tol w = .ok s →
      ∀ r ∈ bank ++ ledger, r.toTransaction ≠ none) := by
  constructor
  · rintro ⟨x, hx, hxn⟩
    by_cases hbv : ∃ rb ∈ bank, rb.toTransaction = none
    · rcases validateAll_error_of_invalid 0 bank hbv with ⟨i, raw, hv, hget, hraw⟩
      rw [Nat.zero_add] at hv
      refine ⟨i, raw, ?_, hraw, Or.inl hget⟩
      rw [Engine.«match», if_neg hp, hv]
    · have hbval : ∀ r ∈ bank, r.toTransaction ≠ none := by
        intro r hr hn
        exact hbv ⟨r, hr, hn⟩
      rcases validateAll_ok_of_valid 0 bank hbval with ⟨bs, hbs⟩
      have hlv : ∃ rl ∈ ledger, rl.toTransaction = none := by
        rcases List.mem_append.mp hx with h1 | h1
        · exact absurd hxn (hbval x h1)
        · exact ⟨x, h1, hxn⟩
      rcases validateAll_error_of_invalid 0 ledger hlv with ⟨i, raw, hv, hget, hraw⟩
      rw [Nat.zero_add] at hv
      refine ⟨i, raw, ?_, hraw, Or.inr hget⟩
      rw [Engine.«match», if_neg hp, hbs, hv]
  · intro s hs r hr
    obtain ⟨bs, ls, hb, hl, _, _⟩ := match_ok_elim bank ledger tol w s hs
    rcases List.mem_append.mp hr with h1 | h1
    · exact validateAll_ok_valid 0 bank bs hb r h1
    · exact validateAll_ok_valid 0 ledger ls hl r h1

/-- A raw transaction missing its date. -/
def badRaw : RawTransaction := ⟨none, "no date", some 5, some 0, "x"⟩

/-- Witness for C7: a bank record missing its date aborts the run with a
ValidationError locating the record. -/
theorem failFast_witness :
    ∃ i raw, Engine.«match» [badRaw] [] 0 0 = .error (.validationError i raw) ∧
      raw.toTransaction = none ∧
      (([badRaw] : List RawTransaction).get? i = some raw ∨
        ([] : List RawTransaction).get? i = some raw) :=
  (failFast [badRaw] [] 0 0 (by norm_num)).1 ⟨badRaw, by simp, rfl⟩

/-- C3: bank transactions are processed in a deterministic order (sorted
by date, then input order); for each one the chosen candidate is a
still-available, eligible pool member minimizing amount delta, then date
delta, then earliest date/input order; and on a found candidate the bank
transaction is consumed and the chosen ledger transaction leaves the
pool. -/
theorem greedySelection (tol : Rat) (w : Int) (b : Nat × Transaction)
    (bs pool : List (Nat × Transaction)) (l : Nat × Transaction)
    (h : findBest tol w b.2 pool = some l) :
    l ∈ pool ∧
    eligible tol w b.2 l.2 = true ∧
    (∀ c ∈ pool, eligible tol w b.2 c.2 = true →
      candKey b.2 l ≤ candKey b.2 c) ∧
    matchLoop tol w (b :: bs) pool =
      ⟨mkMatch b l :: (matchLoop tol w bs (eraseFirst l pool)).«matches»,
       (matchLoop tol w bs (eraseFirst l pool)).unmatchedBank,
       (matchLoop tol w bs (eraseFirst l pool)).unmatchedLedger⟩ ∧
    (∀ q : List (Nat × Transaction),
      List.Pairwise (fun a c => bankKey a ≤ bankKey c) (sortBanks q) ∧
      List.Perm (sortBanks q) q) := by
  refine ⟨findBest_mem h, findBest_eligible h, findBest_min h, ?_,
    fun q => ⟨sortBanks_pairwise q, sortBanks_perm q⟩⟩
  simp only [matchLoop, h]

/-- Witness for C3: the scenario deposit pair is selected from a
one-element pool. -/
theorem greedySelection_witness :
    ((0 : Nat), (⟨2, "deposit", 0, 100, ""⟩ : Transaction))
      ∈ [((0 : Nat), (⟨2, "deposit", 0, 100, ""⟩ : Transaction))] :=
  (greedySelection 0 3 (0, ⟨1, "deposit", 0, 100, ""⟩) []
    [(0, ⟨2, "deposit", 0, 100, ""⟩)] (0, ⟨2, "deposit", 0, 100, ""⟩)
    (by norm_num [findBest, findBestAux, eligible, Transaction.amount])).1

/-- C6: an unmatched ledger transaction is an outstanding check iff it
has a non-empty reference and a debit amount (a credit is never one);
the outstanding list is complete, sorted by date ascending, retains
reference, debit amount and date, is drawn from the ledger side only,
and the action-item display shows the first 5 entries plus the count of
the remainder. -/
theorem outstandingCheckRule (ub ul : List (Nat × Transaction))
    (l : List OutstandingCheck) :
    List.Perm (outstandingChecks ul)
      ((ul.filter fun p => isOutstandingCheck p.2).map fun p => mkCheck p.2) ∧
    List.Pairwise (fun a e => a.date ≤ e.date) (outstandingChecks ul) ∧
    (∀ t : Transaction, isOutstandingCheck t = true ↔
      (t.reference ≠ "" ∧ 0 < t.debit)) ∧
    (∀ t : Transaction, t.debit = 0 → isOutstandingCheck t = false) ∧
    (∀ t : Transaction, mkCheck t = ⟨t.reference, t.debit, t.date⟩) ∧
    (classify ub ul).outstanding = outstandingChecks ul ∧
    displayedChecks l = l.take 5 ∧
    (displayedChecks l).length ≤ 5 ∧
    displayedChecks l ++ l.drop 5 = l ∧
    remainderCount l = l.length - 5 := by
  refine ⟨sortChecks_perm _, sortChecks_pairwise _, ?_, ?_, fun t => rfl, rfl,
    rfl, ?_, List.take_append_drop 5 l, rfl⟩
  · intro t
    simp [isOutstandingCheck]
  · intro t ht
    simp [isOutstandingCheck, ht]
  · simp only [displayedChecks, List.length_take]
    exact min_le_left 5 l.length

/-- Witness for C6: the unmatched ledger check #1001 appears in the
outstanding list, as the filter-and-sort of its side. -/
theorem outstandingCheckRule_witness :
    List.Perm (outstandingChecks [(0, ⟨5, "check", 50, 0, "1001"⟩)])
      (([((0 : Nat), (⟨5, "check", 50, 0, "1001"⟩ : Transaction))].filter
          fun p => isOutstandingCheck p.2).map fun p => mkCheck p.2) :=
  (outstandingCheckRule [] [(0, ⟨5, "check", 50, 0, "1001"⟩)] []).1
